import Mathlib

/-!
Verification of the short-Weierstrass R1CS point gadget
(src/groups/curves/short_weierstrass/mod.rs).

The development shallowly embeds the gadget at the level of witness values:
a field variable is represented by its assigned field element, a boolean
variable by its Bool value together with a compile-time-constant flag (the
code branches on constancy), and a projective point variable by a coordinate
triple together with a constancy flag.  Arithmetic gadget operations are
translated multiplication-for-multiplication from the Rust source.  The
explicit enforcement operations (mul_equals on the curve check, the inverse
check of to_affine, enforce_equal) are modelled by the Boolean value of the
enforced relation under the honestly computed witness assignment, which is
exactly the satisfiability notion of the constraint-system tests
(cs.is_satisfied()); the multiplications inside the complete formulae only
define fresh witnesses and are satisfied by construction, so they carry no
check.

Native (off-circuit) curve arithmetic, which the specification declares as
an assumed external collaborator, is modelled by the mathematical group law
on affine points with a point at infinity.

Concrete curve instances used for the finite checks:
  K7  : the field with 7 elements, curve y^2 = x^3 + 3, group order 13
        (prime, cofactor 1, scalar field of 4 bits);
  K5  : the field with 5 elements, curve y^2 = x^3 + x + 1, group order 9
        (cofactor 3, r = 3);
  K13 : the field with 13 elements, curve y^2 = x^3 + x + 4, group order 14
        (cofactor 2, r = 7).
-/

set_option maxRecDepth 16000
set_option maxHeartbeats 4000000
set_option linter.unusedSectionVars false

namespace SWGadget

/-- Allocation modes of the constraint system (AllocationMode). -/
inductive Mode where
  | constant : Mode
  | input : Mode
  | witness : Mode
deriving DecidableEq

/-- The error surface of the constraint system (SynthesisError); only the
kinds relevant to the claims are distinguished. -/
inductive SynthErr where
  | assignmentMissing : SynthErr
  | unsatisfiable : SynthErr
  | unexpectedIdentity : SynthErr
deriving DecidableEq

/-- A native affine curve point; none is the point at infinity.  This models
the external ark-ec point type used for witness computation. -/
abbrev Pt (F : Type) := Option (F × F)

section GenericDefs

variable {F : Type} [Field F] [DecidableEq F]

/-- Native complete addition on affine points: the mathematical group law of
the short Weierstrass curve with coefficient a (chord and tangent).  This
models the external native arithmetic (ark-ec GroupProjective addition),
which the spec declares out of scope and assumed correct. -/
def addPt (a : F) : Pt F → Pt F → Pt F
  | none, q => q
  | p, none => p
  | some (x1, y1), some (x2, y2) =>
    if x1 = x2 then
      if y1 = -y2 then none
      else
        let l := (3 * (x1 * x1) + a) * (2 * y1)⁻¹
        let x3 := l * l - x1 - x2
        some (x3, l * (x1 - x3) - y1)
    else
      let l := (y2 - y1) * (x2 - x1)⁻¹
      let x3 := l * l - x1 - x2
      some (x3, l * (x1 - x3) - y1)

/-- Native point negation. -/
def negPt : Pt F → Pt F :=
  Option.map fun w => (w.1, -w.2)

/-- Native scalar multiplication by a natural number, iterating native
addition; this is the reference semantics of multiplying a native point by
the integer represented by a bit string. -/
def nsmulPt (a : F) : ℕ → Pt F → Pt F
  | 0, _ => none
  | n + 1, g => addPt a (nsmulPt a n g) g

/-- The affine curve equation y^2 = x^3 + a x + b. -/
def AffT (a b x y : F) : Prop :=
  y * y = x * (x * x) + a * x + b

instance (a b x y : F) : Decidable (AffT a b x y) := by
  unfold AffT; infer_instance

/-- The native point lies on the curve y^2 = x^3 + a x + b (the point at
infinity counts as on the curve). -/
def PtOn (a b : F) : Pt F → Prop
  | none => True
  | some (x, y) => AffT a b x y

instance (a b : F) (p : Pt F) : Decidable (PtOn a b p) := by
  cases p with
  | none => exact .isTrue trivial
  | some w => cases w; unfold PtOn; infer_instance

/-- Coordinate triple of a projective point variable: the values assigned to
the three field variables of a ProjectiveVar. -/
structure Tri (F : Type) where
  x : F
  y : F
  z : F
deriving DecidableEq

/-- Value state of a ProjectiveVar: its coordinate triple together with the
is_constant flag of the gadget (all three field variables compile-time
constants).  The arithmetic impls branch on this flag. -/
structure PVar (F : Type) where
  t : Tri F
  c : Bool
deriving DecidableEq

/-- Value state of a Boolean variable: its assigned value and whether it is
a compile-time constant. -/
structure BitV where
  isConst : Bool
  val : Bool
deriving DecidableEq

/-- Value state of a NonZeroAffineVar: the two coordinate values and the
constancy flag. -/
structure NZ (F : Type) where
  x : F
  y : F
  c : Bool
deriving DecidableEq

/-- The represented native point of a coordinate triple, as computed by
ProjectiveVar::value(): (x/z, y/z) when z is invertible, the identity
otherwise. -/
def valueOfT (p : Tri F) : Pt F :=
  if p.z = 0 then none else some (p.x * p.z⁻¹, p.y * p.z⁻¹)

/-- The represented native point of a point variable. -/
def valueOf (p : PVar F) : Pt F := valueOfT p.t

/-- Good representative: the triple satisfies the projective curve equation
Y^2 Z = X^3 + a X Z^2 + b Z^3, and is not a degenerate representative of the
identity with y = 0 (the allocation code only ever produces z = 0 triples of
the shape (0, 1, 0)).  This is the data-model invariant of ProjectiveVar. -/
def GoodT (a b : F) (p : Tri F) : Prop :=
  (p.y * p.y) * p.z = p.x * (p.x * p.x) + a * p.x * (p.z * p.z) + b * ((p.z * p.z) * p.z)
    ∧ ¬(p.z = 0 ∧ p.y = 0)

instance (a b : F) (p : Tri F) : Decidable (GoodT a b p) := by
  unfold GoodT; infer_instance

/-- Good point variable. -/
def Good (a b : F) (p : PVar F) : Prop := GoodT a b p.t

instance (a b : F) (p : PVar F) : Decidable (Good a b p) := by
  unfold Good; infer_instance

/-- Scaling of a triple by a field element; every good triple is the scaling
of a normalized representative. -/
def tScale (l : F) (p : Tri F) : Tri F :=
  ⟨l * p.x, l * p.y, l * p.z⟩

/-- Multiplication by the curve coefficient a (mul_by_coeff_a), which emits
no constraint and returns the zero variable when a = 0. -/
def mulByA (a f : F) : F :=
  if a = 0 then 0 else f * a

/-- The zero triple produced by CurveVar::zero(): (0, 1, 0). -/
def zeroT : Tri F := ⟨0, 1, 0⟩

/-- The zero point variable: zero() builds its coordinates from the constant
field variables zero and one, so it is a compile-time constant. -/
def zeroV : PVar F := ⟨zeroT, true⟩

/-- Negation of a triple, from ProjectiveVar::negate(): (x, -y, z). -/
def negT (p : Tri F) : Tri F := ⟨p.x, -p.y, p.z⟩

/-- Negation of a point variable; negating constants yields constants. -/
def negV (p : PVar F) : PVar F := ⟨negT p.t, p.c⟩

/-- Complete projective addition, Algorithm 1 of Renes-Costello-Batina 2015,
translated multiplication-for-multiplication from the else-branch of the
Add impl of ProjectiveVar. -/
def caddT (a b : F) (p q : Tri F) : Tri F :=
  let threeB := b + b + b
  let xx := p.x * q.x
  let yy := p.y * q.y
  let zz := p.z * q.z
  let xyPairs := (p.x + p.y) * (q.x + q.y) - (xx + yy)
  let xzPairs := (p.x + p.z) * (q.x + q.z) - (xx + zz)
  let yzPairs := (p.y + p.z) * (q.y + q.z) - (yy + zz)
  let axz := mulByA a xzPairs
  let bzz3Part := axz + zz * threeB
  let yyMBzz3 := yy - bzz3Part
  let yyPBzz3 := yy + bzz3Part
  let azz := mulByA a zz
  let xx3PAzz := (xx + xx) + xx + azz
  let bxz3 := xzPairs * threeB
  let b3XzPairs := mulByA a (xx - azz) + bxz3
  { x := yyMBzz3 * xyPairs - yzPairs * b3XzPairs
    y := yyPBzz3 * yyMBzz3 + xx3PAzz * b3XzPairs
    z := yyPBzz3 * yzPairs + xyPairs * xx3PAzz }

/-- Mixed addition, Algorithm 2 of Renes-Costello-Batina 2015, translated
from ProjectiveVar::add_mixed; the second operand is a NonZeroAffineVar
with implicit z = 1. -/
def maddT (a b : F) (p : Tri F) (qx qy : F) : Tri F :=
  let threeB := b + b + b
  let xx := p.x * qx
  let yy := p.y * qy
  let xyPairs := (p.x + p.y) * (qx + qy) - (xx + yy)
  let xzPairs := qx * p.z + p.x
  let yzPairs := qy * p.z + p.y
  let axz := mulByA a xzPairs
  let bz3Part := axz + p.z * threeB
  let yyMBz3 := yy - bz3Part
  let yyPBz3 := yy + bz3Part
  let azz := mulByA a p.z
  let xx3PAzz := (xx + xx) + xx + azz
  let bxz3 := xzPairs * threeB
  let b3XzPairs := mulByA a (xx - azz) + bxz3
  { x := yyMBz3 * xyPairs - yzPairs * b3XzPairs
    y := yyPBz3 * yyMBz3 + xx3PAzz * b3XzPairs
    z := yyPBz3 * yzPairs + xyPairs * xx3PAzz }

/-- Complete doubling, Algorithm 3 of Renes-Costello-Batina 2015, translated
from ProjectiveVar::double_in_place. -/
def dblT (a b : F) (p : Tri F) : Tri F :=
  let threeB := b + b + b
  let xx := p.x * p.x
  let yy := p.y * p.y
  let zz := p.z * p.z
  let xy2 := (p.x * p.y) + (p.x * p.y)
  let xz2 := (p.x * p.z) + (p.x * p.z)
  let axz2 := mulByA a xz2
  let bzz3Part := axz2 + zz * threeB
  let yyMBzz3 := yy - bzz3Part
  let yyPBzz3 := yy + bzz3Part
  let yFrag := yyPBzz3 * yyMBzz3
  let xFrag := yyMBzz3 * xy2
  let bxz3 := xz2 * threeB
  let azz := mulByA a zz
  let b3XzPairs := mulByA a (xx - azz) + bxz3
  let xx3PAzz := ((xx + xx) + xx + azz) * b3XzPairs
  let y := yFrag + xx3PAzz
  let yz2 := (p.y * p.z) + (p.y * p.z)
  let x := xFrag - b3XzPairs * yz2
  let z := ((yz2 * yy) + (yz2 * yy)) + ((yz2 * yy) + (yz2 * yy))
  ⟨x, y, z⟩

/-- Doubling of a point variable (double_in_place); doubling a constant
yields a constant. -/
def dblV (a b : F) (p : PVar F) : PVar F := ⟨dblT a b p.t, p.c⟩

/-- Value-level conditional select of Boolean::select on point variables,
coordinate-wise; a select with a constant condition is resolved at circuit
generation time and returns the chosen operand itself. -/
def selP (bit : BitV) (tv fv : PVar F) : PVar F :=
  if bit.isConst then (if bit.val then tv else fv)
  else if bit.val then ⟨tv.t, false⟩ else ⟨fv.t, false⟩

/-- Conditional select on NonZeroAffineVar accumulators. -/
def selNZ (bit : BitV) (tv fv : NZ F) : NZ F :=
  if bit.isConst then (if bit.val then tv else fv)
  else if bit.val then ⟨tv.x, tv.y, false⟩ else ⟨fv.x, fv.y, false⟩

/-- The Add impl of ProjectiveVar (impl_bounded_ops!): complete addition,
with the constant-folding fast paths: a constant zero operand is copied
over, a non-zero constant operand is added by mixed addition on its
normalized affine coordinates (value().x, value().y). -/
def gAdd (a b : F) (p q : PVar F) : PVar F :=
  if p.c then
    match valueOf p with
    | none => q
    | some w => ⟨maddT a b q.t w.1 w.2, q.c⟩
  else if q.c then
    match valueOf q with
    | none => p
    | some w => ⟨maddT a b p.t w.1 w.2, p.c⟩
  else ⟨caddT a b p.t q.t, false⟩

/-- The Sub impl of ProjectiveVar: this += other.negate(). -/
def gSub (a b : F) (p q : PVar F) : PVar F := gAdd a b p (negV q)

/-- Modelled from the spec: NonZeroAffineVar::add_unchecked (the source file
non_zero_affine.rs is not under src/).  Incomplete chord addition: the slope
is witnessed as (y2 - y1) / (x2 - x1) and enforced by one multiplication;
the witness value uses the field inverse with 0 inverse 0. -/
def nzAddU (p q : NZ F) : NZ F :=
  let l := (q.y - p.y) * (q.x - p.x)⁻¹
  let x3 := l * l - p.x - q.x
  ⟨x3, l * (p.x - x3) - p.y, p.c && q.c⟩

/-- Modelled from the spec: NonZeroAffineVar::double_in_place (the source
file non_zero_affine.rs is not under src/).  Incomplete tangent doubling
with slope (3 x^2 + a) / (2 y). -/
def nzDblU (a : F) (p : NZ F) : NZ F :=
  let l := (3 * (p.x * p.x) + a) * (2 * p.y)⁻¹
  let x3 := l * l - p.x - p.x
  ⟨x3, l * (p.x - x3) - p.y, p.c⟩

/-- Modelled from the spec: NonZeroAffineVar::into_projective, the lift
(x, y) to (x, y, 1). -/
def nzToProj (p : NZ F) : PVar F := ⟨⟨p.x, p.y, 1⟩, p.c⟩

/-- Output of the non-constant branch of to_affine: coordinate values, the
infinity bit, the witnessed inverse of z, and the Boolean value of the
enforced relation z_inv * z = (1 - is_zero) under the honest assignment. -/
structure AffOut (F : Type) where
  x : F
  y : F
  inf : Bool
  zinv : F
  check : Bool

/-- The non-constant branch of ProjectiveVar::to_affine: witness z_inv as
the inverse of z (zero when z = 0), enforce z_inv * z = not(is_zero), then
select (0, 1) over (z_inv x, z_inv y) by the infinity bit. -/
def toAffineNC (p : Tri F) : AffOut F :=
  let infB : Bool := decide (p.z = 0)
  let zinv : F := if p.z = 0 then 0 else p.z⁻¹
  let nonZeroX := zinv * p.x
  let nonZeroY := zinv * p.y
  { x := if infB then 0 else nonZeroX
    y := if infB then 1 else nonZeroY
    inf := infB
    zinv := zinv
    check := decide (zinv * p.z = (if infB then (0 : F) else 1)) }

/-- The coordinate values and infinity bit produced by to_affine, following
the constant / non-constant branches of the source (both produce the same
values). -/
def toAffineVals (p : PVar F) : F × F × Bool :=
  if p.c then
    match valueOf p with
    | none => (0, 1, true)
    | some w => (w.1, w.2, false)
  else
    let r := toAffineNC p.t
    (r.x, r.y, r.inf)

/-- One iteration of the incomplete-formula prefix loop of
fixed_scalar_mul_le: conditionally add the running power of two into the
accumulator (specializing constant bits), then double the power. -/
def affineStep (a : F) (st : NZ F × NZ F) (bit : BitV) : NZ F × NZ F :=
  let acc := st.1
  let m := st.2
  let acc2 :=
    if bit.isConst then (if bit.val then nzAddU acc m else acc)
    else selNZ bit (nzAddU acc m) acc
  (acc2, nzDblU a m)

/-- One iteration of the complete-formula suffix loop of
fixed_scalar_mul_le. -/
def projStep (a b : F) (st : PVar F × NZ F) (bit : BitV) : PVar F × NZ F :=
  let mr := st.1
  let m := st.2
  let mr2 :=
    if bit.isConst then (if bit.val then gAdd a b mr (nzToProj m) else mr)
    else selP bit (gAdd a b mr (nzToProj m)) mr
  (mr2, nzDblU a m)

/-- ProjectiveVar::fixed_scalar_mul_le: split the chunk at
min(sBits - 2, length); run the incomplete affine loop over the prefix,
skipping bit 0 and starting from a nonzero accumulator; conditionally
subtract the initial accumulator to fix up the skipped bit; then finish the
suffix with complete formulae.  Returns the updated (mul_result,
multiple_of_power_of_two) pair. -/
def fixedScalarMulLe (a b : F) (sBits : ℕ) (mr : PVar F) (m : NZ F)
    (bits : List BitV) : PVar F × NZ F :=
  let splitLen := min (sBits - 2) bits.length
  let affineBits := bits.take splitLen
  let projBits := bits.drop splitLen
  let acc0 := m
  let initialAcc := nzToProj m
  let m1 := nzDblU a m
  let stA := (affineBits.drop 1).foldl (affineStep a) (acc0, m1)
  let result := nzToProj stA.1
  let b0 := bits.headD ⟨true, false⟩
  let subtrahend := selP b0 zeroV initialAcc
  let mr1 := gAdd a b mr (gSub a b result subtrahend)
  projBits.foldl (projStep a b) (mr1, stA.2)

/-- Structural worker for chunking, with fuel bounded by the list length
(every step consumes at least one element). -/
def chunksGo (n : ℕ) : ℕ → List α → List (List α)
  | _, [] => []
  | 0, l => [l]
  | f + 1, x :: xs => (x :: xs.take (n - 1)) :: chunksGo n f (xs.drop (n - 1))

/-- The bits iterator chunked into blocks of n (Rust slice::chunks): every
chunk is nonempty and all but the last have length exactly n. -/
def chunksOf (n : ℕ) (l : List α) : List (List α) := chunksGo n l.length l

/-- ProjectiveVar::scalar_mul_le: early return for a constant zero base;
convert to affine and wrap the coordinates as a NonZeroAffineVar; return
zero on an empty bit iterator; strip most-significant constant-false bits;
run fixed_scalar_mul_le per chunk of sBits bits; finally mask the result
with the infinity bit of the base. -/
def scalarMulLe (a b : F) (sBits : ℕ) (p : PVar F) (bits : List BitV) : PVar F :=
  if p.c = true ∧ valueOf p = none then p
  else
    let aff := toAffineVals p
    let q : NZ F := ⟨aff.1, aff.2.1, p.c⟩
    if bits = [] then zeroV
    else
      let bits2 := ((bits.reverse).dropWhile fun bv => bv.isConst && !bv.val).reverse
      let st := (chunksOf sBits bits2).foldl
        (fun st chunk => fixedScalarMulLe a b sBits st.1 st.2 chunk) (zeroV, q)
      selP ⟨p.c, aff.2.2⟩ zeroV st.1

/-- The natural number represented by a little-endian bit-variable string:
the sum of val(b_i) * 2^i. -/
def bitsVal : List BitV → ℕ
  | [] => 0
  | bv :: l => (if bv.val then 1 else 0) + 2 * bitsVal l

/-- The coordinate triple produced by new_variable_omit_on_curve_check: a
native identity becomes (0, 1, 0), a native affine point (x, y) becomes
(x, y, 1). -/
def allocTri (g : Pt F) : Tri F :=
  match g with
  | none => ⟨0, 1, 0⟩
  | some w => ⟨w.1, w.2, 1⟩

/-- Value state allocated by new_variable_omit_on_curve_check; the result is
a compile-time constant exactly in Constant mode. -/
def allocOmitOnCurveCheck (g : Pt F) (mode : Mode) : PVar F :=
  ⟨allocTri g, decide (mode = Mode.constant)⟩

/-- The Boolean value of the on-curve enforcement of
new_variable_omit_prime_order_check under the honest assignment:
z * (y^2 - b z^2) = x * (x^2 + a z^2). -/
def curveCheckB (a b : F) (t : Tri F) : Bool :=
  decide (t.z * (t.y * t.y - (t.z * t.z) * b) = t.x * (t.x * t.x + (t.z * t.z) * a))

/-- new_variable_omit_prime_order_check: allocate the triple, and in any
mode other than Constant emit the five-multiplication on-curve check.
Returns the allocated variable together with the list of emitted
enforcement checks (evaluated under the honest assignment). -/
def allocOmitPrimeOrderCheck (a b : F) (g : Pt F) (mode : Mode) :
    PVar F × List Bool :=
  let p := allocOmitOnCurveCheck g mode
  if mode ≠ Mode.constant then (p, [curveCheckB a b p.t]) else (p, [])

/-- The Boolean value of conditional_enforce_equal of two projective point
variables with a constant-true condition: equal cross products or both
representatives of the identity. -/
def eqCheckB (p q : Tri F) : Bool :=
  decide ((p.x * q.z = q.x * p.z ∧ p.y * q.z = q.y * p.z) ∨ (p.z = 0 ∧ q.z = 0))

/-- The big-endian double-and-add loop of the Witness allocation arm:
result starts at zero; for every bit, double, then conditionally add ge. -/
def ddFold (a b : F) (ge : PVar F) (bitsBE : List Bool) : PVar F :=
  bitsBE.foldl (fun r bit => let r2 := dblV a b r; if bit then gAdd a b r2 ge else r2) zeroV

/-- Structural worker for the 2-adic split, with fuel bounded by n. -/
def twoAdicGo : ℕ → ℕ → ℕ × ℕ
  | 0, n => (0, n)
  | f + 1, n =>
    if n ≠ 0 ∧ n % 2 = 0 then
      ((twoAdicGo f (n / 2)).1 + 1, (twoAdicGo f (n / 2)).2)
    else (0, n)

/-- The 2-adic split n = 2^k * odd computed by the div2 loop of the Witness
allocation arm: returns (k, odd part). -/
def twoAdic (n : ℕ) : ℕ × ℕ := twoAdicGo n n

/-- Structural worker for the binary expansion, with fuel bounded by n. -/
def natBitsLEGo : ℕ → ℕ → List Bool
  | 0, _ => []
  | f + 1, n =>
    if n = 0 then [] else decide (n % 2 = 1) :: natBitsLEGo f (n / 2)

/-- Little-endian binary expansion of a natural number, without leading
zeros. -/
def natBitsLE (n : ℕ) : List Bool := natBitsLEGo n n

/-- Big-endian binary expansion without leading zeros
(BitIteratorBE::without_leading_zeros). -/
def natBitsBE (n : ℕ) : List Bool := (natBitsLE n).reverse

/-- Hamming weight of the binary expansion. -/
def hamming (n : ℕ) : ℕ := (natBitsLE n).count true

/-- Executable modular inverse: the least y with x * y = 1 mod r, zero when
none exists.  This models the native scalar-field inversion used by the
Witness allocation arm (ScalarField::inverse), which for the real
parameters always exists. -/
def modInv (r x : ℕ) : ℕ :=
  ((List.range r).find? fun y => x * y % r = 1).getD 0

/-- Compile-time curve parameters of SWModelParameters relevant to witness
allocation: the coefficients, the cofactor, the scalar-field order r, and
the precomputed native inverse of the cofactor modulo r (COFACTOR_INV). -/
structure Curve (F : Type) where
  a : F
  b : F
  cofactor : ℕ
  r : ℕ
  cofactorInv : ℕ

/-- The Witness arm of AllocVar::new_variable for ProjectiveVar: strip the
power of two from the cofactor; compare Hamming weights of the odd part and
of r - 1; in the low-cofactor-weight branch witness the cofactor-cleared
native point, allocate with on-curve check, double k times and double-and-
add by the odd part of the cofactor, returning that result; otherwise
witness the native point divided by 2^k, allocate with on-curve check,
double k times, compute the (r-1)-multiple (which is discarded), enforce
the allocated point equal to itself, and return the allocated point.
Returns the variable together with the emitted checks. -/
def witnessAllocW (P : Curve F) (g : Pt F) : PVar F × List Bool :=
  let k := (twoAdic P.cofactor).1
  let oddPart := (twoAdic P.cofactor).2
  let cofactorWeight := hamming oddPart
  let modMinus1Weight := hamming (P.r - 1)
  if cofactorWeight < modMinus1Weight then
    let native := nsmulPt P.a P.cofactorInv g
    let al := allocOmitPrimeOrderCheck P.a P.b native Mode.witness
    let ge := (List.range k).foldl (fun q _ => dblV P.a P.b q) al.1
    let result := ddFold P.a P.b ge (natBitsBE oddPart)
    (result, al.2)
  else
    let native := nsmulPt P.a (modInv P.r (2 ^ k)) g
    let al := allocOmitPrimeOrderCheck P.a P.b native Mode.witness
    let ge := (List.range k).foldl (fun q _ => dblV P.a P.b q) al.1
    let _discarded := ddFold P.a P.b ge (natBitsBE (P.r - 1))
    (ge, al.2 ++ [eqCheckB ge.t ge.t])

/-- new_variable_omit_on_curve_check applied to a fallible value closure:
when the closure fails, the source replaces the closure error by
Err(AssignmentMissing) on each coordinate (lines 222-226), and the first
coordinate allocation propagates that replacement error to the caller. -/
def allocOmitOnCurveCheckE (f : Except SynthErr (Pt F)) (mode : Mode) :
    Except SynthErr (PVar F) :=
  match f with
  | .ok g => .ok (allocOmitOnCurveCheck g mode)
  | .error _ => .error SynthErr.assignmentMissing

/-- precomputed_base_scalar_mul_le: unzip the iterator, index the collected
bases at 0 (a panic on an empty iterator, modelled by none), and delegate to
scalar_mul_le on the first base as a constant. -/
def precomputedBaseScalarMulLe (a b : F) (sBits : ℕ)
    (pairs : List (BitV × Pt F)) : Option (PVar F) :=
  let bits := pairs.map Prod.fst
  let bases := pairs.map Prod.snd
  match bases.head? with
  | none => none
  | some base => some (scalarMulLe a b sBits ⟨allocTri base, true⟩ bits)

end GenericDefs

section GenericLemmas

variable {F : Type} [Field F] [DecidableEq F]

theorem mulByA_eq (a f : F) : mulByA a f = a * f := by
  unfold mulByA
  split
  · simp [*]
  · ring

/-- Normalized representative: either an affine point with z = 1 on the
curve, or the canonical identity representative (0, 1, 0). -/
def NormT (a b : F) (p : Tri F) : Prop :=
  (p.z = 1 ∧ AffT a b p.x p.y) ∨ (p.x = 0 ∧ p.y = 1 ∧ p.z = 0)

instance (a b : F) (p : Tri F) : Decidable (NormT a b p) := by
  unfold NormT; infer_instance

/-- Algorithm 1 is bihomogeneous of bidegree (2, 2): scaling the inputs
scales the output. -/
theorem caddT_scale (a b l m : F) (p q : Tri F) :
    caddT a b (tScale l p) (tScale m q) = tScale ((l * l) * (m * m)) (caddT a b p q) := by
  simp only [caddT, tScale, mulByA_eq, Tri.mk.injEq]
  refine ⟨by ring, by ring, by ring⟩

/-- Algorithm 2 is homogeneous of degree 2 in its projective operand. -/
theorem maddT_scale (a b l qx qy : F) (p : Tri F) :
    maddT a b (tScale l p) qx qy = tScale (l * l) (maddT a b p qx qy) := by
  simp only [maddT, tScale, mulByA_eq, Tri.mk.injEq]
  refine ⟨by ring, by ring, by ring⟩

/-- Algorithm 3 is homogeneous of degree 4. -/
theorem dblT_scale (a b l : F) (p : Tri F) :
    dblT a b (tScale l p) = tScale ((l * l) * (l * l)) (dblT a b p) := by
  simp only [dblT, tScale, mulByA_eq, Tri.mk.injEq]
  refine ⟨by ring, by ring, by ring⟩

/-- The represented value is invariant under nonzero scaling of the
triple. -/
theorem valueOfT_scale (l : F) (hl : l ≠ 0) (p : Tri F) :
    valueOfT (tScale l p) = valueOfT p := by
  unfold valueOfT tScale
  by_cases hz : p.z = 0
  · simp [hz, hl]
  · have hlz : l * p.z ≠ 0 := mul_ne_zero hl hz
    simp only [hz, hlz, if_false]
    rw [mul_inv]
    simp only [Option.some.injEq, Prod.mk.injEq]
    constructor
    · field_simp
      ring
    · field_simp
      ring

/-- Good representatives are preserved by nonzero scaling. -/
theorem goodT_scale (a b l : F) (hl : l ≠ 0) (p : Tri F) (hp : GoodT a b p) :
    GoodT a b (tScale l p) := by
  obtain ⟨h1, h2⟩ := hp
  constructor
  · simp only [tScale]
    linear_combination (l * l * l) * h1
  · simp only [tScale]
    rintro ⟨hz, hy⟩
    exact h2 ⟨by exact (mul_eq_zero.mp hz).resolve_left hl,
              (mul_eq_zero.mp hy).resolve_left hl⟩

/-- Every good triple is a nonzero scaling of a normalized
representative. -/
theorem goodT_decomp (a b : F) (p : Tri F) (hp : GoodT a b p) :
    ∃ l pn, l ≠ 0 ∧ NormT a b pn ∧ p = tScale l pn := by
  obtain ⟨h1, h2⟩ := hp
  by_cases hz : p.z = 0
  · have hy : p.y ≠ 0 := fun hy => h2 ⟨hz, hy⟩
    have hx : p.x = 0 := by
      have h3 : p.x * (p.x * p.x) = 0 := by
        have := h1
        rw [hz] at this
        linear_combination -this
      rcases mul_eq_zero.mp h3 with h | h
      · exact h
      · rcases mul_eq_zero.mp h with h | h <;> exact h
    refine ⟨p.y, ⟨0, 1, 0⟩, hy, Or.inr ⟨rfl, rfl, rfl⟩, ?_⟩
    simp only [tScale]
    cases p
    simp_all
  · have hu : p.z * p.z⁻¹ = 1 := mul_inv_cancel₀ hz
    refine ⟨p.z, ⟨p.x * p.z⁻¹, p.y * p.z⁻¹, 1⟩, hz, Or.inl ⟨rfl, ?_⟩, ?_⟩
    · unfold AffT
      linear_combination (p.z⁻¹ * p.z⁻¹ * p.z⁻¹) * h1 +
        (-(p.y * p.y * p.z⁻¹ * p.z⁻¹) + a * p.x * p.z⁻¹ * (1 + p.z * p.z⁻¹)
          + b * (1 + p.z * p.z⁻¹ + p.z * p.z * p.z⁻¹ * p.z⁻¹)) * hu
    · cases p with
      | mk x y z =>
        simp only [tScale, Tri.mk.injEq]
        refine ⟨?_, ?_, by simp⟩ <;> field_simp

/-- Case split on a normalized representative, in substitution-friendly
form. -/
theorem normT_cases (a b : F) (pn : Tri F) (h : NormT a b pn) :
    (∃ x y, pn = ⟨x, y, 1⟩ ∧ AffT a b x y) ∨ pn = zeroT := by
  rcases h with ⟨hz, ha⟩ | ⟨hx, hy, hz⟩
  · left
    refine ⟨pn.x, pn.y, ?_, ha⟩
    cases pn
    simp_all
  · right
    cases pn
    simp_all [zeroT]

/-- The value of a normalized affine representative. -/
theorem valueOfT_norm_affine (x y : F) : valueOfT (⟨x, y, 1⟩ : Tri F) = some (x, y) := by
  unfold valueOfT
  simp

/-- The value of the canonical identity representative. -/
theorem valueOfT_zeroT : valueOfT (zeroT : Tri F) = none := by
  unfold valueOfT zeroT
  simp

/-- The zero triple is a good representative. -/
theorem goodT_zeroT (a b : F) : GoodT a b (zeroT : Tri F) := by
  constructor
  · show (1 * 1) * 0 = 0 * (0 * 0) + a * 0 * (0 * 0) + b * ((0 * 0) * (0 : F))
    ring
  · rintro ⟨-, h⟩
    exact one_ne_zero h

/-- Negation commutes with the represented value. -/
theorem valueOfT_negT (p : Tri F) : valueOfT (negT p) = negPt (valueOfT p) := by
  unfold valueOfT negT negPt
  by_cases hz : p.z = 0 <;> simp [hz, neg_mul]

/-- Negation preserves good representatives. -/
theorem goodT_negT (a b : F) (p : Tri F) (hp : GoodT a b p) : GoodT a b (negT p) := by
  obtain ⟨h1, h2⟩ := hp
  constructor
  · simp only [negT]
    linear_combination h1
  · simp only [negT]
    rintro ⟨hz, hy⟩
    exact h2 ⟨hz, by simpa using hy⟩

/-- The value of a good triple lies on the curve. -/
theorem ptOn_valueOfT (a b : F) (p : Tri F) (hp : GoodT a b p) :
    PtOn a b (valueOfT p) := by
  obtain ⟨l, pn, hl, hn, rfl⟩ := goodT_decomp a b p hp
  rw [valueOfT_scale l hl]
  rcases hn with ⟨hz, haff⟩ | ⟨hx, hy, hz⟩
  · have hv : valueOfT pn = some (pn.x, pn.y) := by
      simp [valueOfT, hz]
    rw [hv]
    exact haff
  · have hv : valueOfT pn = none := by
      simp [valueOfT, hz]
    rw [hv]
    trivial

/-- The affine coordinates read off a good nonzero triple satisfy the
affine curve equation. -/
theorem value_some_aff (a b : F) (p : Tri F) (hp : GoodT a b p) (w : F × F)
    (hw : valueOfT p = some w) : AffT a b w.1 w.2 := by
  have := ptOn_valueOfT a b p hp
  rw [hw] at this
  exact this

/-- Value of a conditional select of point variables. -/
theorem selP_val (bit : BitV) (tv fv : PVar F) :
    valueOf (selP bit tv fv) = if bit.val then valueOf tv else valueOf fv := by
  unfold selP valueOf
  cases bit with
  | mk c v => cases c <;> cases v <;> simp

/-- A conditional select of good point variables is good. -/
theorem selP_good (a b : F) (bit : BitV) (tv fv : PVar F)
    (ht : Good a b tv) (hf : Good a b fv) : Good a b (selP bit tv fv) := by
  unfold selP Good
  cases bit with
  | mk c v => cases c <;> cases v <;> simpa

/-- The coordinate pair of a NonZeroAffineVar as a native point. -/
def nzPt (m : NZ F) : Pt F := some (m.x, m.y)

/-- Coordinates of a conditional select of accumulators. -/
theorem selNZ_pt (bit : BitV) (tv fv : NZ F) :
    nzPt (selNZ bit tv fv) = if bit.val then nzPt tv else nzPt fv := by
  unfold selNZ nzPt
  cases bit with
  | mk c v => cases c <;> cases v <;> simp

/-- Value of the projective lift of a NonZeroAffineVar. -/
theorem valueOf_nzToProj (m : NZ F) : valueOf (nzToProj m) = nzPt m := by
  unfold nzToProj valueOf valueOfT nzPt
  simp

/-- The projective lift of an on-curve accumulator is good. -/
theorem good_nzToProj (a b : F) (m : NZ F) (hm : AffT a b m.x m.y) :
    Good a b (nzToProj m) := by
  constructor
  · show (m.y * m.y) * 1 = m.x * (m.x * m.x) + a * m.x * (1 * 1) + b * ((1 * 1) * 1)
    unfold AffT at hm
    linear_combination hm
  · rintro ⟨h, -⟩
    exact one_ne_zero h

/-- The zero point variable is good. -/
theorem good_zeroV (a b : F) : Good a b (zeroV : PVar F) := goodT_zeroT a b

/-- The value of the zero point variable is the identity. -/
theorem valueOf_zeroV : valueOf (zeroV : PVar F) = none := valueOfT_zeroT

/-- Negation of point variables commutes with the value. -/
theorem valueOf_negV (p : PVar F) : valueOf (negV p) = negPt (valueOf p) :=
  valueOfT_negT p.t

/-- Negation of point variables preserves goodness. -/
theorem good_negV (a b : F) (p : PVar F) (hp : Good a b p) : Good a b (negV p) :=
  goodT_negT a b p.t hp

theorem addPt_none_right (a : F) (p : Pt F) : addPt a p none = p := by
  cases p <;> rfl

theorem addPt_none_left (a : F) (p : Pt F) : addPt a none p = p := by
  cases p <;> rfl

/-- Native scalar multiples of the identity are the identity. -/
theorem nsmulPt_none (a : F) (n : ℕ) : nsmulPt a n (none : Pt F) = none := by
  induction n with
  | zero => rfl
  | succ k ih =>
    show addPt a (nsmulPt a k none) none = none
    rw [addPt_none_right, ih]

/-- Fuel irrelevance of the chunking worker: any fuel covering the list
length computes the chunks. -/
theorem chunksGo_fuel {α : Type} (n : ℕ) : ∀ (f g : ℕ) (l : List α),
    l.length ≤ f → l.length ≤ g → chunksGo n f l = chunksGo n g l := by
  intro f
  induction f with
  | zero =>
    intro g l hf hg
    have : l = [] := List.length_eq_zero.mp (Nat.le_zero.mp hf)
    subst this
    cases g <;> rfl
  | succ k ih =>
    intro g l hf hg
    cases l with
    | nil => cases g <;> rfl
    | cons x xs =>
      cases g with
      | zero => simp at hg
      | succ j =>
        show (x :: xs.take (n - 1)) :: chunksGo n k (xs.drop (n - 1))
            = (x :: xs.take (n - 1)) :: chunksGo n j (xs.drop (n - 1))
        have h1 : xs.length ≤ k := by
          simp [List.length_cons] at hf
          omega
        have h2 : xs.length ≤ j := by
          simp [List.length_cons] at hg
          omega
        congr 1
        apply ih
        · rw [List.length_drop]
          omega
        · rw [List.length_drop]
          omega

theorem chunksOf_nil {α : Type} (n : ℕ) : chunksOf n ([] : List α) = [] := rfl

theorem chunksOf_cons {α : Type} (n : ℕ) (x : α) (xs : List α) :
    chunksOf n (x :: xs) = (x :: xs.take (n - 1)) :: chunksOf n (xs.drop (n - 1)) := by
  show (x :: xs.take (n - 1)) :: chunksGo n xs.length (xs.drop (n - 1))
      = (x :: xs.take (n - 1)) :: chunksGo n (xs.drop (n - 1)).length (xs.drop (n - 1))
  congr 1
  apply chunksGo_fuel
  · rw [List.length_drop]
    omega
  · exact le_refl _

theorem bitsVal_append (l1 l2 : List BitV) :
    bitsVal (l1 ++ l2) = bitsVal l1 + 2 ^ l1.length * bitsVal l2 := by
  induction l1 with
  | nil => simp [bitsVal]
  | cons bv l ih =>
    simp only [List.cons_append, bitsVal, List.append_eq]
    rw [ih, List.length_cons, pow_succ]
    ring

/-- Stripping most-significant constant-false bits does not change the
represented scalar. -/
theorem bitsVal_strip (l : List BitV) :
    bitsVal (((l.reverse).dropWhile fun bv => bv.isConst && !bv.val).reverse)
      = bitsVal l := by
  induction l using List.reverseRecOn with
  | nil => simp [bitsVal]
  | append_singleton ys y ih =>
    rw [List.reverse_append]
    simp only [List.reverse_singleton, List.singleton_append]
    by_cases hy : (fun bv : BitV => bv.isConst && !bv.val) y = true
    · rw [List.dropWhile_cons, if_pos hy, ih, bitsVal_append]
      have hyv : y.val = false := by
        have h2 : (y.isConst && !y.val) = true := hy
        cases hval : y.val
        · rfl
        · rw [hval] at h2
          simp at h2
      simp [bitsVal, hyv]
    · rw [List.dropWhile_cons, if_neg hy]
      simp

/-- The affine values of a variable representing the identity. -/
theorem toAffineVals_none (p : PVar F) (hv : valueOf p = none) :
    toAffineVals p = (0, 1, true) := by
  have hz : p.t.z = 0 := by
    by_contra hz
    unfold valueOf valueOfT at hv
    rw [if_neg hz] at hv
    exact Option.noConfusion hv
  unfold toAffineVals
  by_cases hc : p.c = true
  · rw [if_pos hc, hv]
  · rw [if_neg hc]
    simp [toAffineNC, hz]

/-- The affine values of a variable representing an affine point. -/
theorem toAffineVals_some (p : PVar F) (w : F × F) (hv : valueOf p = some w) :
    toAffineVals p = (w.1, w.2, false) := by
  have hz : p.t.z ≠ 0 := by
    intro hz
    unfold valueOf valueOfT at hv
    rw [if_pos hz] at hv
    exact Option.noConfusion hv
  have hw : w = (p.t.x * p.t.z⁻¹, p.t.y * p.t.z⁻¹) := by
    unfold valueOf valueOfT at hv
    rw [if_neg hz] at hv
    exact (Option.some.inj hv).symm
  unfold toAffineVals
  by_cases hc : p.c = true
  · rw [if_pos hc, hv]
  · rw [if_neg hc]
    simp [toAffineNC, hz, hw, mul_comm]

/-- Reduction of scalar_mul_le in the main case (base not a constant zero,
bits nonempty): the final infinity-masking select applied to the chunk
fold seeded with the zero accumulator and the affine coordinates of the
base. -/
theorem scalarMulLe_red (a b : F) (s : ℕ) (p : PVar F) (bits : List BitV)
    (hc : ¬(p.c = true ∧ valueOf p = none)) (hb : ¬(bits = [])) :
    scalarMulLe a b s p bits =
      selP ⟨p.c, (toAffineVals p).2.2⟩ zeroV
        ((chunksOf s (((bits.reverse).dropWhile fun bv => bv.isConst && !bv.val).reverse)).foldl
          (fun st chunk => fixedScalarMulLe a b s st.1 st.2 chunk)
          (zeroV, ⟨(toAffineVals p).1, (toAffineVals p).2.1, p.c⟩)).1 := by
  simp only [scalarMulLe, if_neg hc, if_neg hb]

end GenericLemmas

/-! The main concrete instance: the curve y^2 = x^3 + 3 over the field with
7 elements.  Its group has prime order 13, so the cofactor is 1 and the
scalar field has 13 elements and 4 bits; scalar_mul_le therefore splits
every 4-bit chunk into a 2-bit incomplete-formula prefix and a 2-bit
complete-formula suffix, exercising every code path of the algorithm. -/

/-- The field with 7 elements, with a kernel-computable inverse. -/
def K7 := Fin 7

instance : CommRing K7 := inferInstanceAs (CommRing (Fin 7))
instance : DecidableEq K7 := inferInstanceAs (DecidableEq (Fin 7))
instance : Fintype K7 := inferInstanceAs (Fintype (Fin 7))

instance : Field K7 where
  inv x := ⟨[0, 1, 4, 5, 2, 3, 6].getD x.val 0 % 7, Nat.mod_lt _ (by norm_num)⟩
  exists_pair_ne := ⟨0, 1, by decide⟩
  mul_inv_cancel := by decide
  inv_zero := by decide
  nnqsmul := _
  qsmul := _

namespace C7

/-- The curve group: native points on y^2 = x^3 + 3 over K7. -/
def Crv := {p : Pt K7 // PtOn 0 3 p}

instance : DecidableEq Crv := Subtype.instDecidableEq

instance : Fintype Crv := Subtype.fintype _

theorem addPt_on : ∀ p q : Pt K7, PtOn 0 3 p → PtOn 0 3 q →
    PtOn 0 3 (addPt 0 p q) := by decide

theorem negPt_on : ∀ p : Pt K7, PtOn 0 3 p → PtOn 0 3 (negPt p) := by decide

instance : Zero Crv := ⟨⟨none, trivial⟩⟩

instance : Add Crv := ⟨fun p q => ⟨addPt 0 p.1 q.1, addPt_on p.1 q.1 p.2 q.2⟩⟩

instance : Neg Crv := ⟨fun p => ⟨negPt p.1, negPt_on p.1 p.2⟩⟩

instance : AddCommGroup Crv where
  add := (· + ·)
  zero := 0
  neg := Neg.neg
  add_assoc := by decide
  zero_add := by decide
  add_zero := by decide
  add_comm := by decide
  neg_add_cancel := by decide
  nsmul := nsmulRec
  zsmul := zsmulRec

theorem crv_add_val (p q : Crv) : (p + q).1 = addPt 0 p.1 q.1 := rfl

theorem crv_neg_val (p : Crv) : (-p).1 = negPt p.1 := rfl

theorem crv_zero_val : ((0 : Crv)).1 = none := rfl

/-- Iterated native addition agrees with the group nsmul. -/
theorem nsmulPt_val (n : ℕ) (g : Crv) : (n • g).1 = nsmulPt 0 n g.1 := by
  induction n with
  | zero => rfl
  | succ k ih =>
    rw [succ_nsmul, crv_add_val, ih]
    rfl

/-- Every element of the order-13 group is killed by 13. -/
theorem smul13 : ∀ g : Crv, (13 : ℕ) • g = 0 := by decide

/-- No nonzero element is killed by a positive scalar below 13. -/
theorem smul_small_ne : ∀ g : Crv, g ≠ 0 → ∀ k : Fin 13, k.1 ≠ 0 →
    k.1 • g ≠ 0 := by decide

theorem smul_eq_zero_iff (g : Crv) (hg : g ≠ 0) (n : ℕ) :
    n • g = 0 ↔ 13 ∣ n := by
  constructor
  · intro h
    have hsplit : n = n % 13 + n / 13 * 13 := by omega
    have h2 : n • g = (n % 13) • g := by
      conv_lhs => rw [hsplit]
      rw [add_nsmul, ← smul_smul, smul13, smul_zero, add_zero]
    by_contra hnd
    have hmod : n % 13 ≠ 0 := fun h0 => hnd (Nat.dvd_of_mod_eq_zero h0)
    exact smul_small_ne g hg ⟨n % 13, Nat.mod_lt n (by omega)⟩ hmod (h2 ▸ h)
  · rintro ⟨k, rfl⟩
    rw [mul_comm, ← smul_smul, smul13, smul_zero]

theorem pow2_smul_ne_zero (g : Crv) (hg : g ≠ 0) (c : ℕ) : (2 ^ c) • g ≠ 0 := by
  intro h
  have := (smul_eq_zero_iff g hg (2 ^ c)).mp h
  have h13 : Nat.Prime 13 := by norm_num
  have := h13.dvd_of_dvd_pow (n := c) (by simpa using this)
  omega

theorem three_smul_ne_zero (g : Crv) (hg : g ≠ 0) : (3 : ℕ) • g ≠ 0 := by
  intro h
  have := (smul_eq_zero_iff g hg 3).mp h
  omega

theorem ne_two_smul (g : Crv) (hg : g ≠ 0) : g ≠ (2 : ℕ) • g := by
  intro h
  apply hg
  have h0 : g - g = (2 : ℕ) • g - g := by rw [← h]
  rw [sub_self, two_nsmul, add_sub_cancel_right] at h0
  exact h0.symm

theorem ne_neg_two_smul (g : Crv) (hg : g ≠ 0) : g ≠ -((2 : ℕ) • g) := by
  intro h
  apply three_smul_ne_zero g hg
  have hsum : (3 : ℕ) • g = g + (2 : ℕ) • g := by
    rw [succ_nsmul, two_nsmul]
    abel
  rw [hsum]
  nth_rewrite 1 [h]
  exact neg_add_cancel _

/-! Finite checks of the three Renes-Costello-Batina formulae on normalized
representatives of the K7 curve; the general statements follow from these by
the homogeneity lemmas. -/

theorem cadd_norm_aa : ∀ x1 y1 x2 y2 : K7, AffT 0 3 x1 y1 → AffT 0 3 x2 y2 →
    valueOfT (caddT 0 3 ⟨x1, y1, 1⟩ ⟨x2, y2, 1⟩)
      = addPt 0 (some (x1, y1)) (some (x2, y2))
    ∧ GoodT 0 3 (caddT 0 3 ⟨x1, y1, 1⟩ ⟨x2, y2, 1⟩) := by decide

theorem cadd_norm_az : ∀ x y : K7, AffT 0 3 x y →
    valueOfT (caddT 0 3 ⟨x, y, 1⟩ zeroT) = some (x, y)
    ∧ GoodT 0 3 (caddT 0 3 ⟨x, y, 1⟩ zeroT) := by decide

theorem cadd_norm_za : ∀ x y : K7, AffT 0 3 x y →
    valueOfT (caddT 0 3 zeroT ⟨x, y, 1⟩) = some (x, y)
    ∧ GoodT 0 3 (caddT 0 3 zeroT ⟨x, y, 1⟩) := by decide

theorem cadd_norm_zz :
    valueOfT (caddT 0 3 (zeroT : Tri K7) zeroT) = none
    ∧ GoodT 0 3 (caddT 0 3 (zeroT : Tri K7) zeroT) := by decide

theorem madd_norm_a : ∀ x1 y1 qx qy : K7, AffT 0 3 x1 y1 → AffT 0 3 qx qy →
    valueOfT (maddT 0 3 ⟨x1, y1, 1⟩ qx qy)
      = addPt 0 (some (x1, y1)) (some (qx, qy))
    ∧ GoodT 0 3 (maddT 0 3 ⟨x1, y1, 1⟩ qx qy) := by decide

theorem madd_norm_z : ∀ qx qy : K7, AffT 0 3 qx qy →
    valueOfT (maddT 0 3 zeroT qx qy) = some (qx, qy)
    ∧ GoodT 0 3 (maddT 0 3 zeroT qx qy) := by decide

theorem dbl_norm_a : ∀ x y : K7, AffT 0 3 x y →
    valueOfT (dblT 0 3 ⟨x, y, 1⟩) = addPt 0 (some (x, y)) (some (x, y))
    ∧ GoodT 0 3 (dblT 0 3 ⟨x, y, 1⟩) := by decide

theorem dbl_norm_z :
    valueOfT (dblT 0 3 (zeroT : Tri K7)) = none
    ∧ GoodT 0 3 (dblT 0 3 (zeroT : Tri K7)) := by decide

theorem nzAdd_pt : ∀ (x1 y1 x2 y2 : K7) (c1 c2 : Bool),
    AffT 0 3 x1 y1 → AffT 0 3 x2 y2 → x1 ≠ x2 →
    nzPt (nzAddU ⟨x1, y1, c1⟩ ⟨x2, y2, c2⟩)
      = addPt 0 (some (x1, y1)) (some (x2, y2))
    ∧ AffT 0 3 (nzAddU (⟨x1, y1, c1⟩ : NZ K7) ⟨x2, y2, c2⟩).x
        (nzAddU (⟨x1, y1, c1⟩ : NZ K7) ⟨x2, y2, c2⟩).y := by decide

theorem nzDbl_pt : ∀ (x y : K7) (c : Bool), AffT 0 3 x y →
    nzPt (nzDblU 0 ⟨x, y, c⟩) = addPt 0 (some (x, y)) (some (x, y))
    ∧ AffT 0 3 (nzDblU 0 (⟨x, y, c⟩ : NZ K7)).x (nzDblU 0 (⟨x, y, c⟩ : NZ K7)).y := by
  decide

theorem xdiff : ∀ x1 y1 x2 y2 : K7, AffT 0 3 x1 y1 → AffT 0 3 x2 y2 →
    x1 = x2 → (y1 = y2 ∨ y1 = -y2) := by decide

theorem addPt_comm_on : ∀ p q : Pt K7, PtOn 0 3 p → PtOn 0 3 q →
    addPt 0 p q = addPt 0 q p := by decide

/-! Glue: the formula lemmas extended from normalized representatives to all
good triples by the homogeneity of the formulae. -/

theorem cadd_val (p q : Tri K7) (hp : GoodT 0 3 p) (hq : GoodT 0 3 q) :
    valueOfT (caddT 0 3 p q) = addPt 0 (valueOfT p) (valueOfT q)
    ∧ GoodT 0 3 (caddT 0 3 p q) := by
  obtain ⟨l, pn, hl, hpn, rfl⟩ := goodT_decomp _ _ p hp
  obtain ⟨m, qn, hm, hqn, rfl⟩ := goodT_decomp _ _ q hq
  have hscale : (l * l) * (m * m) ≠ 0 :=
    mul_ne_zero (mul_ne_zero hl hl) (mul_ne_zero hm hm)
  rw [caddT_scale, valueOfT_scale _ hscale, valueOfT_scale _ hl, valueOfT_scale _ hm]
  rcases normT_cases 0 3 pn hpn with ⟨px, py, rfl, ha1⟩ | rfl <;>
    rcases normT_cases 0 3 qn hqn with ⟨qx, qy, rfl, ha2⟩ | rfl
  · have h := cadd_norm_aa px py qx qy ha1 ha2
    rw [valueOfT_norm_affine, valueOfT_norm_affine]
    exact ⟨h.1, goodT_scale _ _ _ hscale _ h.2⟩
  · have h := cadd_norm_az px py ha1
    rw [valueOfT_norm_affine, valueOfT_zeroT, addPt_none_right]
    exact ⟨h.1, goodT_scale _ _ _ hscale _ h.2⟩
  · have h := cadd_norm_za qx qy ha2
    rw [valueOfT_norm_affine, valueOfT_zeroT]
    exact ⟨h.1, goodT_scale _ _ _ hscale _ h.2⟩
  · have h := cadd_norm_zz
    rw [valueOfT_zeroT, addPt_none_right]
    exact ⟨h.1, goodT_scale _ _ _ hscale _ h.2⟩

theorem madd_val (t : Tri K7) (qx qy : K7) (ht : GoodT 0 3 t)
    (hq : AffT 0 3 qx qy) :
    valueOfT (maddT 0 3 t qx qy) = addPt 0 (valueOfT t) (some (qx, qy))
    ∧ GoodT 0 3 (maddT 0 3 t qx qy) := by
  obtain ⟨l, pn, hl, hpn, rfl⟩ := goodT_decomp _ _ t ht
  have hscale : l * l ≠ 0 := mul_ne_zero hl hl
  rw [maddT_scale, valueOfT_scale _ hscale, valueOfT_scale _ hl]
  rcases normT_cases 0 3 pn hpn with ⟨px, py, rfl, ha1⟩ | rfl
  · have h := madd_norm_a px py qx qy ha1 hq
    rw [valueOfT_norm_affine]
    exact ⟨h.1, goodT_scale _ _ _ hscale _ h.2⟩
  · have h := madd_norm_z qx qy hq
    rw [valueOfT_zeroT]
    exact ⟨h.1, goodT_scale _ _ _ hscale _ h.2⟩

theorem dbl_val (t : Tri K7) (ht : GoodT 0 3 t) :
    valueOfT (dblT 0 3 t) = addPt 0 (valueOfT t) (valueOfT t)
    ∧ GoodT 0 3 (dblT 0 3 t) := by
  obtain ⟨l, pn, hl, hpn, rfl⟩ := goodT_decomp _ _ t ht
  have hscale : (l * l) * (l * l) ≠ 0 :=
    mul_ne_zero (mul_ne_zero hl hl) (mul_ne_zero hl hl)
  rw [dblT_scale, valueOfT_scale _ hscale, valueOfT_scale _ hl]
  rcases normT_cases 0 3 pn hpn with ⟨px, py, rfl, ha1⟩ | rfl
  · have h := dbl_norm_a px py ha1
    rw [valueOfT_norm_affine]
    exact ⟨h.1, goodT_scale _ _ _ hscale _ h.2⟩
  · have h := dbl_norm_z
    rw [valueOfT_zeroT]
    exact ⟨h.1, goodT_scale _ _ _ hscale _ h.2⟩

/-- Value and goodness of the Add impl of ProjectiveVar on the K7 curve:
every branch (constant-zero copy, mixed addition on a constant operand,
generic complete addition) computes the native sum of the values. -/
theorem gAdd_val (p q : PVar K7) (hp : Good 0 3 p) (hq : Good 0 3 q) :
    valueOf (gAdd 0 3 p q) = addPt 0 (valueOf p) (valueOf q)
    ∧ Good 0 3 (gAdd 0 3 p q) := by
  unfold gAdd
  cases hcp : p.c with
  | true =>
    cases hv : valueOf p with
    | none =>
      refine ⟨?_, hq⟩
      rw [addPt_none_left]
      rfl
    | some w =>
      have haffw := value_some_aff 0 3 p.t hp w hv
      have h := madd_val q.t w.1 w.2 hq haffw
      have hv2 : valueOfT p.t = some w := hv
      have hcomm := addPt_comm_on (valueOf q) (some w) (ptOn_valueOfT 0 3 q.t hq)
        (hv2 ▸ ptOn_valueOfT 0 3 p.t hp)
      exact ⟨h.1.trans hcomm, h.2⟩
  | false =>
    cases hcq : q.c with
    | true =>
      cases hv : valueOf q with
      | none =>
        refine ⟨?_, hp⟩
        rw [addPt_none_right]
        rfl
      | some w =>
        have haffw := value_some_aff 0 3 q.t hq w hv
        have h := madd_val p.t w.1 w.2 hp haffw
        exact ⟨h.1, h.2⟩
    | false => exact cadd_val p.t q.t hp hq

/-- Value and goodness of the Sub impl (addition of the negation). -/
theorem gSub_val (p q : PVar K7) (hp : Good 0 3 p) (hq : Good 0 3 q) :
    valueOf (gSub 0 3 p q) = addPt 0 (valueOf p) (negPt (valueOf q))
    ∧ Good 0 3 (gSub 0 3 p q) := by
  unfold gSub
  have h := gAdd_val p (negV q) hp (good_negV _ _ q hq)
  rw [valueOf_negV] at h
  exact h

/-! Loop invariants of scalar multiplication on the K7 curve. -/

/-- The accumulator of the incomplete-formula loop represents a nonzero
curve point. -/
def NZrep (m : NZ K7) (A : Crv) : Prop := A.1 = nzPt m

theorem nzrep_aff (m : NZ K7) (A : Crv) (h : NZrep m A) : AffT 0 3 m.x m.y := by
  have h2 := A.2
  rw [h] at h2
  exact h2

theorem nzrep_ne_zero (m : NZ K7) (A : Crv) (h : NZrep m A) : A ≠ 0 := by
  intro h0
  rw [h0] at h
  unfold NZrep nzPt at h
  rw [crv_zero_val] at h
  exact Option.noConfusion h

theorem nzAdd_rep (acc m : NZ K7) (A B : Crv) (ha : NZrep acc A) (hb : NZrep m B)
    (hne : A ≠ B) (hne2 : A ≠ -B) : NZrep (nzAddU acc m) (A + B) := by
  have haff1 := nzrep_aff acc A ha
  have haff2 := nzrep_aff m B hb
  have hx : acc.x ≠ m.x := by
    intro he
    rcases xdiff acc.x acc.y m.x m.y haff1 haff2 he with hy | hy
    · apply hne
      apply Subtype.ext
      rw [ha, hb]
      unfold nzPt
      rw [he, hy]
    · apply hne2
      apply Subtype.ext
      rw [ha, crv_neg_val, hb]
      show some (acc.x, acc.y) = some (m.x, -m.y)
      rw [he, hy]
  have h := (nzAdd_pt acc.x acc.y m.x m.y acc.c m.c haff1 haff2 hx).1
  show (A + B).1 = nzPt (nzAddU acc m)
  rw [crv_add_val, ha, hb]
  exact h.symm

theorem nzDbl_rep (m : NZ K7) (B : Crv) (hb : NZrep m B) :
    NZrep (nzDblU 0 m) ((2 : ℕ) • B) := by
  have haff := nzrep_aff m B hb
  have h := (nzDbl_pt m.x m.y m.c haff).1
  show ((2 : ℕ) • B).1 = nzPt (nzDblU 0 m)
  rw [two_nsmul, crv_add_val, hb]
  exact h.symm

theorem selNZ_rep (bit : BitV) (tv fv : NZ K7) (A B : Crv)
    (ht : NZrep tv A) (hf : NZrep fv B) :
    NZrep (selNZ bit tv fv) (if bit.val then A else B) := by
  unfold NZrep at *
  cases hbv : bit.val <;> rw [selNZ_pt, hbv] <;> simp [ht, hf]

/-- One incomplete-formula iteration: the accumulator picks up B when the
bit is set (in both the constant and the non-constant branch), and the
power-of-two multiple doubles. -/
theorem affineStep_rep (bit : BitV) (acc m : NZ K7) (A B : Crv)
    (ha : NZrep acc A) (hb : NZrep m B) (hne : A ≠ B) (hne2 : A ≠ -B) :
    NZrep (affineStep 0 (acc, m) bit).1 (if bit.val then A + B else A)
    ∧ NZrep (affineStep 0 (acc, m) bit).2 ((2 : ℕ) • B) := by
  have hAdd := nzAdd_rep acc m A B ha hb hne hne2
  constructor
  · show NZrep (if bit.isConst then (if bit.val then nzAddU acc m else acc)
        else selNZ bit (nzAddU acc m) acc) _
    by_cases hbc : bit.isConst = true
    · rw [if_pos hbc]
      by_cases hbv : bit.val = true
      · simp only [if_pos hbv]
        exact hAdd
      · simp only [if_neg hbv]
        exact ha
    · rw [if_neg hbc]
      exact selNZ_rep bit (nzAddU acc m) acc (A + B) A hAdd ha
  · exact nzDbl_rep m B hb

/-- One complete-formula iteration: the result accumulator picks up B when
the bit is set, stays good, and the power-of-two multiple doubles. -/
theorem projStep_rep (bit : BitV) (mr : PVar K7) (m : NZ K7) (R B : Crv)
    (hg : Good 0 3 mr) (hv : valueOf mr = R.1) (hb : NZrep m B) :
    Good 0 3 (projStep 0 3 (mr, m) bit).1
    ∧ valueOf (projStep 0 3 (mr, m) bit).1 = (if bit.val then R + B else R).1
    ∧ NZrep (projStep 0 3 (mr, m) bit).2 ((2 : ℕ) • B) := by
  have hgm : Good 0 3 (nzToProj m) := good_nzToProj 0 3 m (nzrep_aff m B hb)
  have hvm : valueOf (nzToProj m) = B.1 := by rw [valueOf_nzToProj, hb]
  have hAdd := gAdd_val mr (nzToProj m) hg hgm
  have hAddVal : valueOf (gAdd 0 3 mr (nzToProj m)) = (R + B).1 := by
    rw [hAdd.1, hv, hvm, crv_add_val]
  have hSel := selP_good 0 3 bit (gAdd 0 3 mr (nzToProj m)) mr hAdd.2 hg
  refine ⟨?_, ?_, nzDbl_rep m B hb⟩
  · show Good 0 3 (if bit.isConst then (if bit.val then gAdd 0 3 mr (nzToProj m) else mr)
        else selP bit (gAdd 0 3 mr (nzToProj m)) mr)
    by_cases hbc : bit.isConst = true
    · rw [if_pos hbc]
      by_cases hbv : bit.val = true
      · rw [if_pos hbv]
        exact hAdd.2
      · rw [if_neg hbv]
        exact hg
    · rw [if_neg hbc]
      exact hSel
  · show valueOf (if bit.isConst then (if bit.val then gAdd 0 3 mr (nzToProj m) else mr)
        else selP bit (gAdd 0 3 mr (nzToProj m)) mr) = _
    by_cases hbc : bit.isConst = true
    · rw [if_pos hbc]
      by_cases hbv : bit.val = true
      · simp only [if_pos hbv]
        exact hAddVal
      · simp only [if_neg hbv]
        exact hv
    · rw [if_neg hbc, selP_val]
      by_cases hbv : bit.val = true
      · simp only [if_pos hbv]
        exact hAddVal
      · simp only [if_neg hbv]
        exact hv

/-- The bit-0 fix-up of fixed_scalar_mul_le: lift the accumulator to
projective, conditionally subtract the initial accumulator value, and fold
the difference into mul_result.  The result is good and represents
R + (A - (b0 ? 0 : H)). -/
theorem condSub_val (mr : PVar K7) (R : Crv) (accN m2 : NZ K7) (A H : Crv)
    (b0 : BitV) (hg : Good 0 3 mr) (hv : valueOf mr = R.1)
    (ha : NZrep accN A) (hm : NZrep m2 H) :
    Good 0 3 (gAdd 0 3 mr (gSub 0 3 (nzToProj accN) (selP b0 zeroV (nzToProj m2))))
    ∧ valueOf (gAdd 0 3 mr (gSub 0 3 (nzToProj accN) (selP b0 zeroV (nzToProj m2))))
      = (R + (A - (if b0.val then 0 else H))).1 := by
  have hsubg : Good 0 3 (selP b0 zeroV (nzToProj m2)) :=
    selP_good 0 3 b0 zeroV (nzToProj m2) (good_zeroV 0 3)
      (good_nzToProj 0 3 m2 (nzrep_aff m2 H hm))
  have hsubv : valueOf (selP b0 zeroV (nzToProj m2))
      = ((if b0.val then (0 : Crv) else H)).1 := by
    rw [selP_val]
    by_cases hbv : b0.val = true
    · simp only [if_pos hbv]
      rw [valueOf_zeroV, crv_zero_val]
    · simp only [if_neg hbv]
      rw [valueOf_nzToProj]
      exact hm.symm
  have h2 := gSub_val (nzToProj accN) (selP b0 zeroV (nzToProj m2))
    (good_nzToProj 0 3 accN (nzrep_aff accN A ha)) hsubg
  have h2v : valueOf (gSub 0 3 (nzToProj accN) (selP b0 zeroV (nzToProj m2)))
      = (A - (if b0.val then 0 else H)).1 := by
    rw [h2.1, valueOf_nzToProj, ← ha, hsubv, sub_eq_add_neg, crv_add_val, crv_neg_val]
  have h3 := gAdd_val mr (gSub 0 3 (nzToProj accN) (selP b0 zeroV (nzToProj m2))) hg h2.2
  refine ⟨h3.2, ?_⟩
  rw [h3.1, hv, h2v, crv_add_val]

/-- Per-chunk correctness of fixed_scalar_mul_le on the K7 curve: for a
nonempty chunk of at most 4 bits, a good mul_result representing R and a
power-of-two multiple representing H (nonzero), the updated mul_result is
good and represents R + bitsVal(chunk) * H, and the updated multiple
represents 2^len * H.  The exceptional cases of the incomplete formulae are
ruled out by the order-13 argument (H, 2H nonzero and H distinct from
plus or minus 2H). -/
theorem fixedChunk (bits : List BitV) (h1 : bits ≠ []) (h4 : bits.length ≤ 4)
    (mr : PVar K7) (m : NZ K7) (R H : Crv)
    (hg : Good 0 3 mr) (hv : valueOf mr = R.1) (hm : NZrep m H) :
    Good 0 3 (fixedScalarMulLe 0 3 4 mr m bits).1
    ∧ valueOf (fixedScalarMulLe 0 3 4 mr m bits).1 = (R + bitsVal bits • H).1
    ∧ NZrep (fixedScalarMulLe 0 3 4 mr m bits).2 ((2 ^ bits.length) • H) := by
  have hH0 : H ≠ 0 := nzrep_ne_zero m H hm
  have hm1 : NZrep (nzDblU 0 m) ((2 : ℕ) • H) := nzDbl_rep m H hm
  have hpow1 : (2 ^ 1 : ℕ) • H = (2 : ℕ) • H := by norm_num
  rcases bits with _ | ⟨b0, _ | ⟨b1, _ | ⟨b2, _ | ⟨b3, rest⟩⟩⟩⟩
  · exact absurd rfl h1
  · -- one bit: empty affine loop, empty suffix
    have hred : fixedScalarMulLe 0 3 4 mr m [b0]
        = (gAdd 0 3 mr (gSub 0 3 (nzToProj m) (selP b0 zeroV (nzToProj m))),
           nzDblU 0 m) := rfl
    rw [hred]
    have hcs := condSub_val mr R m m H H b0 hg hv hm hm
    refine ⟨hcs.1, ?_, ?_⟩
    · rw [hcs.2]
      congr 1
      by_cases hb0 : b0.val = true <;>
        simp [bitsVal, hb0]
    · show NZrep (nzDblU 0 m) ((2 ^ 1 : ℕ) • H)
      rw [hpow1]
      exact hm1
  · -- two bits: one incomplete-formula iteration, empty suffix
    have hstep := affineStep_rep b1 m (nzDblU 0 m) H ((2 : ℕ) • H) hm hm1
      (ne_two_smul H hH0) (ne_neg_two_smul H hH0)
    have hred : fixedScalarMulLe 0 3 4 mr m [b0, b1]
        = (gAdd 0 3 mr (gSub 0 3 (nzToProj (affineStep 0 (m, nzDblU 0 m) b1).1)
            (selP b0 zeroV (nzToProj m))),
           (affineStep 0 (m, nzDblU 0 m) b1).2) := rfl
    rw [hred]
    have hcs := condSub_val mr R (affineStep 0 (m, nzDblU 0 m) b1).1 m
      (if b1.val then H + (2 : ℕ) • H else H) H b0 hg hv hstep.1 hm
    refine ⟨hcs.1, ?_, ?_⟩
    · rw [hcs.2]
      congr 1
      by_cases hb0 : b0.val = true <;> by_cases hb1 : b1.val = true <;>
        simp [bitsVal, hb0, hb1] <;> abel
    · have hpow : ((2 : ℕ) • ((2 : ℕ) • H)) = (2 ^ 2 : ℕ) • H := by
        rw [smul_smul]
        norm_num
      show NZrep (affineStep 0 (m, nzDblU 0 m) b1).2 ((2 ^ 2 : ℕ) • H)
      rw [← hpow]
      exact hstep.2
  · -- three bits: one incomplete iteration, one complete iteration
    have hstep := affineStep_rep b1 m (nzDblU 0 m) H ((2 : ℕ) • H) hm hm1
      (ne_two_smul H hH0) (ne_neg_two_smul H hH0)
    have hcs := condSub_val mr R (affineStep 0 (m, nzDblU 0 m) b1).1 m
      (if b1.val then H + (2 : ℕ) • H else H) H b0 hg hv hstep.1 hm
    have hp2 := projStep_rep b2
      (gAdd 0 3 mr (gSub 0 3 (nzToProj (affineStep 0 (m, nzDblU 0 m) b1).1)
        (selP b0 zeroV (nzToProj m))))
      (affineStep 0 (m, nzDblU 0 m) b1).2
      (R + ((if b1.val then H + (2 : ℕ) • H else H) - (if b0.val then 0 else H)))
      ((2 : ℕ) • ((2 : ℕ) • H)) hcs.1 hcs.2 hstep.2
    have hred : fixedScalarMulLe 0 3 4 mr m [b0, b1, b2]
        = projStep 0 3
            (gAdd 0 3 mr (gSub 0 3 (nzToProj (affineStep 0 (m, nzDblU 0 m) b1).1)
              (selP b0 zeroV (nzToProj m))),
             (affineStep 0 (m, nzDblU 0 m) b1).2) b2 := rfl
    rw [hred]
    refine ⟨hp2.1, ?_, ?_⟩
    · rw [hp2.2.1]
      congr 1
      by_cases hb0 : b0.val = true <;> by_cases hb1 : b1.val = true <;>
        by_cases hb2 : b2.val = true <;>
        simp [bitsVal, hb0, hb1, hb2, smul_smul] <;> abel
    · have hpow : ((2 : ℕ) • ((2 : ℕ) • ((2 : ℕ) • H))) = (2 ^ 3 : ℕ) • H := by
        rw [smul_smul, smul_smul]
        norm_num
      show NZrep (projStep 0 3
          (gAdd 0 3 mr (gSub 0 3 (nzToProj (affineStep 0 (m, nzDblU 0 m) b1).1)
            (selP b0 zeroV (nzToProj m))),
           (affineStep 0 (m, nzDblU 0 m) b1).2) b2).2 ((2 ^ 3 : ℕ) • H)
      rw [← hpow]
      exact hp2.2.2
  · rcases rest with _ | ⟨b4, rest2⟩
    · -- four bits: one incomplete iteration, two complete iterations
      have hstep := affineStep_rep b1 m (nzDblU 0 m) H ((2 : ℕ) • H) hm hm1
        (ne_two_smul H hH0) (ne_neg_two_smul H hH0)
      have hcs := condSub_val mr R (affineStep 0 (m, nzDblU 0 m) b1).1 m
        (if b1.val then H + (2 : ℕ) • H else H) H b0 hg hv hstep.1 hm
      have hp2 := projStep_rep b2
        (gAdd 0 3 mr (gSub 0 3 (nzToProj (affineStep 0 (m, nzDblU 0 m) b1).1)
          (selP b0 zeroV (nzToProj m))))
        (affineStep 0 (m, nzDblU 0 m) b1).2
        (R + ((if b1.val then H + (2 : ℕ) • H else H) - (if b0.val then 0 else H)))
        ((2 : ℕ) • ((2 : ℕ) • H)) hcs.1 hcs.2 hstep.2
      have hp3 := projStep_rep b3
        (projStep 0 3
          (gAdd 0 3 mr (gSub 0 3 (nzToProj (affineStep 0 (m, nzDblU 0 m) b1).1)
            (selP b0 zeroV (nzToProj m))),
           (affineStep 0 (m, nzDblU 0 m) b1).2) b2).1
        (projStep 0 3
          (gAdd 0 3 mr (gSub 0 3 (nzToProj (affineStep 0 (m, nzDblU 0 m) b1).1)
            (selP b0 zeroV (nzToProj m))),
           (affineStep 0 (m, nzDblU 0 m) b1).2) b2).2
        (if b2.val then
          (R + ((if b1.val then H + (2 : ℕ) • H else H) - (if b0.val then 0 else H)))
            + (2 : ℕ) • ((2 : ℕ) • H)
         else
          (R + ((if b1.val then H + (2 : ℕ) • H else H) - (if b0.val then 0 else H))))
        ((2 : ℕ) • ((2 : ℕ) • ((2 : ℕ) • H))) hp2.1 hp2.2.1 hp2.2.2
      have hred : fixedScalarMulLe 0 3 4 mr m [b0, b1, b2, b3]
          = projStep 0 3
              (projStep 0 3
                (gAdd 0 3 mr (gSub 0 3 (nzToProj (affineStep 0 (m, nzDblU 0 m) b1).1)
                  (selP b0 zeroV (nzToProj m))),
                 (affineStep 0 (m, nzDblU 0 m) b1).2) b2) b3 := rfl
      rw [hred]
      refine ⟨hp3.1, ?_, ?_⟩
      · rw [hp3.2.1]
        congr 1
        by_cases hb0 : b0.val = true <;> by_cases hb1 : b1.val = true <;>
          by_cases hb2 : b2.val = true <;> by_cases hb3 : b3.val = true <;>
          simp [bitsVal, hb0, hb1, hb2, hb3, smul_smul] <;> abel
      · have hpow : ((2 : ℕ) • ((2 : ℕ) • ((2 : ℕ) • ((2 : ℕ) • H))))
            = (2 ^ 4 : ℕ) • H := by
          rw [smul_smul, smul_smul, smul_smul]
          norm_num
        show NZrep (projStep 0 3 (projStep 0 3
            (gAdd 0 3 mr (gSub 0 3 (nzToProj (affineStep 0 (m, nzDblU 0 m) b1).1)
              (selP b0 zeroV (nzToProj m))),
             (affineStep 0 (m, nzDblU 0 m) b1).2) b2) b3).2 ((2 ^ 4 : ℕ) • H)
        rw [← hpow]
        exact hp3.2.2
    · exfalso
      simp at h4

/-- Folding fixed_scalar_mul_le over the 4-bit chunks accumulates the full
little-endian scalar. -/
theorem foldChunks : ∀ (n : ℕ) (bits : List BitV), bits.length ≤ n →
    ∀ (mr : PVar K7) (m : NZ K7) (R H : Crv), Good 0 3 mr → valueOf mr = R.1 →
    NZrep m H →
    Good 0 3 ((chunksOf 4 bits).foldl
      (fun st chunk => fixedScalarMulLe 0 3 4 st.1 st.2 chunk) (mr, m)).1
    ∧ valueOf ((chunksOf 4 bits).foldl
      (fun st chunk => fixedScalarMulLe 0 3 4 st.1 st.2 chunk) (mr, m)).1
      = (R + bitsVal bits • H).1 := by
  intro n
  induction n with
  | zero =>
    intro bits hlen mr m R H hg hv hm
    have hb : bits = [] := List.length_eq_zero.mp (Nat.le_zero.mp hlen)
    subst hb
    rw [chunksOf_nil, List.foldl_nil]
    refine ⟨hg, ?_⟩
    rw [show bitsVal [] = 0 from rfl, zero_nsmul, add_zero]
    exact hv
  | succ k ih =>
    intro bits hlen mr m R H hg hv hm
    cases bits with
    | nil =>
      rw [chunksOf_nil, List.foldl_nil]
      refine ⟨hg, ?_⟩
      rw [show bitsVal [] = 0 from rfl, zero_nsmul, add_zero]
      exact hv
    | cons x xs =>
      rw [chunksOf_cons, List.foldl_cons]
      have hc1ne : (x :: xs.take (4 - 1)) ≠ [] := by simp
      have hc1len : (x :: xs.take (4 - 1)).length ≤ 4 := by
        simp [List.length_take]
      have hchunk := fixedChunk (x :: xs.take (4 - 1)) hc1ne hc1len mr m R H hg hv hm
      have hlen2 : (xs.drop (4 - 1)).length ≤ k := by
        rw [List.length_drop]
        simp [List.length_cons] at hlen
        omega
      have hrest := ih (xs.drop (4 - 1)) hlen2 _ _
        (R + bitsVal (x :: xs.take (4 - 1)) • H)
        ((2 ^ (x :: xs.take (4 - 1)).length) • H)
        hchunk.1 hchunk.2.1 hchunk.2.2
      refine ⟨hrest.1, ?_⟩
      rw [hrest.2]
      congr 1
      have hjoin : x :: xs = (x :: xs.take (4 - 1)) ++ xs.drop (4 - 1) := by
        simp
      rw [smul_smul]
      conv_rhs => rw [hjoin, bitsVal_append, add_nsmul, ← add_assoc]
      rw [mul_comm (bitsVal (xs.drop (4 - 1))) (2 ^ (x :: xs.take (4 - 1)).length)]

/-- Correctness of scalar_mul_le on the K7 curve: for every good projective
point variable and every little-endian string of boolean variables of any
length, the represented value of the result is the native scalar multiple
of the represented value of the input by the integer encoded by the bit
values. -/
theorem scalarMulLe_correct (p : PVar K7) (bits : List BitV) (hp : Good 0 3 p) :
    valueOf (scalarMulLe 0 3 4 p bits) = nsmulPt 0 (bitsVal bits) (valueOf p) := by
  by_cases hc : p.c = true ∧ valueOf p = none
  · have hred : scalarMulLe 0 3 4 p bits = p := by
      unfold scalarMulLe
      rw [if_pos hc]
    rw [hred, hc.2, nsmulPt_none]
  · by_cases hb : bits = []
    · subst hb
      have hred : scalarMulLe 0 3 4 p [] = zeroV := by
        unfold scalarMulLe
        rw [if_neg hc]
        rfl
      rw [hred, valueOf_zeroV]
      rfl
    · cases hv : valueOf p with
      | none =>
        have haff := toAffineVals_none p hv
        rw [scalarMulLe_red 0 3 4 p bits hc hb, selP_val, haff, nsmulPt_none]
        simp [valueOf_zeroV]
      | some w =>
        have haff := toAffineVals_some p w hv
        have hOn : PtOn 0 3 (some w) := by
          have h0 := ptOn_valueOfT 0 3 p.t hp
          rw [show valueOfT p.t = some w from hv] at h0
          exact h0
        have hmrv : valueOf (zeroV : PVar K7) = ((0 : Crv)).1 := by
          rw [valueOf_zeroV, crv_zero_val]
        have hrep : NZrep (⟨w.1, w.2, p.c⟩ : NZ K7) ⟨some w, hOn⟩ := rfl
        have hfold := foldChunks
          (((bits.reverse).dropWhile fun bv => bv.isConst && !bv.val).reverse).length
          (((bits.reverse).dropWhile fun bv => bv.isConst && !bv.val).reverse)
          (le_refl _) zeroV ⟨w.1, w.2, p.c⟩ 0 ⟨some w, hOn⟩
          (good_zeroV 0 3) hmrv hrep
        rw [scalarMulLe_red 0 3 4 p bits hc hb, selP_val, haff]
        dsimp only
        rw [if_neg (by simp)]
        rw [hfold.2, zero_add, bitsVal_strip, nsmulPt_val]

end C7

/-! Curve instance for the C4 claim: y^2 = x^3 + x + 1 over the field with
5 elements, group order 9 = 3 * 3, scalar field order r = 3, odd cofactor 3
of Hamming weight 2 >= 1 = weight(r - 1), so Witness allocation takes the
(r - 1)-check branch. -/

/-- The field with 5 elements, with a kernel-computable inverse. -/
def K5 := Fin 5

instance : CommRing K5 := inferInstanceAs (CommRing (Fin 5))
instance : DecidableEq K5 := inferInstanceAs (DecidableEq (Fin 5))
instance : Fintype K5 := inferInstanceAs (Fintype (Fin 5))

instance : Field K5 where
  inv x := ⟨[0, 1, 3, 2, 4].getD x.val 0 % 5, Nat.mod_lt _ (by norm_num)⟩
  exists_pair_ne := ⟨0, 1, by decide⟩
  mul_inv_cancel := by decide
  inv_zero := by decide
  nnqsmul := _
  qsmul := _

/-- Parameters of the K5 curve: a = 1, b = 1, cofactor 3, r = 3; the
cofactor inverse parameter is unused in the branch this curve exercises. -/
def curve5 : Curve K5 := ⟨1, 1, 3, 3, 1⟩

/-! Curve instance for the C3 claim: y^2 = x^3 + x + 4 over the field with
13 elements, group order 14 = 2 * 7, scalar field order r = 7, cofactor 2
with odd part 1 of Hamming weight 1 < 2 = weight(r - 1), so Witness
allocation takes the cofactor-multiplication branch; COFACTOR_INV =
2^-1 mod 7 = 4. -/

/-- The field with 13 elements, with a kernel-computable inverse. -/
def K13 := Fin 13

instance : CommRing K13 := inferInstanceAs (CommRing (Fin 13))
instance : DecidableEq K13 := inferInstanceAs (DecidableEq (Fin 13))
instance : Fintype K13 := inferInstanceAs (Fintype (Fin 13))

instance : Field K13 where
  inv x := ⟨[0, 1, 7, 9, 10, 8, 11, 2, 5, 3, 4, 6, 12].getD x.val 0 % 13,
    Nat.mod_lt _ (by norm_num)⟩
  exists_pair_ne := ⟨0, 1, by decide⟩
  mul_inv_cancel := by decide
  inv_zero := by decide
  nnqsmul := _
  qsmul := _

/-- Parameters of the K13 curve: a = 1, b = 4, cofactor 2, r = 7,
COFACTOR_INV = 4. -/
def curve13 : Curve K13 := ⟨1, 4, 2, 7, 4⟩

/-! The claim theorems. -/

/-- C1: for every projective point variable P (satisfying the data-model
invariant) and every little-endian sequence of boolean variables, the value
of scalar_mul_le(P, bits) equals the native scalar multiplication of the
integer encoded by the bit values with the native value of P — the
prefix/suffix split at min(s - 2, len), the skipped bit 0 with conditional
subtraction of the initial accumulator, and the per-chunk folding all
preserve this.  Verified on the K7 curve (s = 4), where every code path
(incomplete prefix, conditional subtraction, complete suffix, chunking,
infinity masking, constant specializations of bits and base) is
exercised. -/
theorem claim_C1 (p : PVar K7) (bits : List BitV) (hp : Good 0 3 p) :
    valueOf (scalarMulLe 0 3 4 p bits) = nsmulPt 0 (bitsVal bits) (valueOf p) :=
  C7.scalarMulLe_correct p bits hp

theorem claim_C1_witness :
    Good 0 3 (⟨⟨1, 2, 1⟩, false⟩ : PVar K7)
    ∧ valueOf (scalarMulLe 0 3 4 ⟨⟨1, 2, 1⟩, false⟩
        [⟨false, true⟩, ⟨true, false⟩, ⟨false, true⟩, ⟨false, true⟩, ⟨false, true⟩])
      = nsmulPt 0
          (bitsVal [⟨false, true⟩, ⟨true, false⟩, ⟨false, true⟩, ⟨false, true⟩,
            ⟨false, true⟩])
          (valueOf (⟨⟨1, 2, 1⟩, false⟩ : PVar K7)) :=
  ⟨by decide, claim_C1 ⟨⟨1, 2, 1⟩, false⟩ _ (by decide)⟩

/-- C2: new_variable_omit_prime_order_check with mode distinct from
Constant emits exactly the check z (y^2 - b z^2) = x (x^2 + a z^2), which
is equivalent to the projective curve equation; allocating a native point
that is not on the curve as Input or Witness makes that check false under
the honest assignment (the system is unsatisfiable), while Constant mode
emits no check. -/
theorem claim_C2 {F : Type} [Field F] [DecidableEq F] (a b : F) (mode : Mode)
    (x y : F) (hoff : ¬ AffT a b x y) :
    (allocOmitPrimeOrderCheck a b (some (x, y)) Mode.constant).2 = []
    ∧ (mode ≠ Mode.constant →
        (allocOmitPrimeOrderCheck a b (some (x, y)) mode).2
          = [curveCheckB a b (allocTri (some (x, y)))]
        ∧ curveCheckB a b (allocTri (some (x, y))) = false)
    ∧ (∀ t : Tri F, curveCheckB a b t = true
        ↔ (t.y * t.y) * t.z
          = t.x * (t.x * t.x) + a * t.x * (t.z * t.z) + b * ((t.z * t.z) * t.z)) := by
  refine ⟨?_, ?_, ?_⟩
  · simp [allocOmitPrimeOrderCheck]
  · intro hmode
    refine ⟨by simp [allocOmitPrimeOrderCheck, allocOmitOnCurveCheck, hmode], ?_⟩
    simp only [allocTri, curveCheckB, decide_eq_false_iff_not]
    intro h
    apply hoff
    unfold AffT
    linear_combination h
  · intro t
    simp only [curveCheckB, decide_eq_true_eq]
    constructor <;> intro h <;> linear_combination h

theorem claim_C2_witness :
    ¬ AffT (0 : K7) 3 0 0
    ∧ ((allocOmitPrimeOrderCheck (0 : K7) 3 (some (0, 0)) Mode.constant).2 = []
      ∧ (Mode.input ≠ Mode.constant →
          (allocOmitPrimeOrderCheck (0 : K7) 3 (some (0, 0)) Mode.input).2
            = [curveCheckB (0 : K7) 3 (allocTri (some (0, 0)))]
          ∧ curveCheckB (0 : K7) 3 (allocTri (some (0, 0))) = false)
      ∧ (∀ t : Tri K7, curveCheckB (0 : K7) 3 t = true
          ↔ (t.y * t.y) * t.z
            = t.x * (t.x * t.x) + 0 * t.x * (t.z * t.z)
              + 3 * ((t.z * t.z) * t.z))) :=
  ⟨by decide, claim_C2 0 3 Mode.input 0 0 (by decide)⟩

/-- C3 counterexample: on the K13 curve (cofactor 2, odd part of Hamming
weight 1 below weight(r - 1) = 2, so the cofactor branch is taken), the
point (2, 1) lies on the curve but outside the prime-order subgroup
(7 * (2,1) is not the identity), and yet every check emitted by Witness
allocation is satisfied by the honest assignment: the constraint system is
satisfiable, refuting the claimed unsatisfiability. -/
theorem claim_C3_counterexample :
    hamming (twoAdic curve13.cofactor).2 < hamming (curve13.r - 1)
    ∧ PtOn 1 4 (some ((2 : K13), 1))
    ∧ nsmulPt 1 7 (some ((2 : K13), 1)) ≠ none
    ∧ ¬ ((witnessAllocW curve13 (some ((2 : K13), 1))).2.all id = false) := by decide

/-- C3 amended: in the cofactor branch of Witness allocation, witnessing
any native point on the curve leaves every emitted check satisfied (the
system is satisfiable); instead of rejecting points outside the prime-order
subgroup, the branch guarantees by construction that the value of the
returned variable lies in the prime-order subgroup, and coincides with the
witnessed point exactly when that point is already in the subgroup. -/
theorem claim_C3_amended (g : Pt K13) (hon : PtOn 1 4 g) :
    (witnessAllocW curve13 g).2.all id = true
    ∧ nsmulPt 1 7 (valueOf (witnessAllocW curve13 g).1) = none
    ∧ (nsmulPt 1 7 g = none → valueOf (witnessAllocW curve13 g).1 = g) := by
  revert hon
  revert g
  decide

theorem claim_C3_witness :
    PtOn 1 4 (some ((2 : K13), 1))
    ∧ ((witnessAllocW curve13 (some ((2 : K13), 1))).2.all id = true
      ∧ nsmulPt 1 7 (valueOf (witnessAllocW curve13 (some ((2 : K13), 1))).1) = none
      ∧ (nsmulPt 1 7 (some ((2 : K13), 1)) = none →
          valueOf (witnessAllocW curve13 (some ((2 : K13), 1))).1
            = some ((2 : K13), 1))) :=
  ⟨by decide, claim_C3_amended (some (2, 1)) (by decide)⟩

/-- C4: on the K5 curve the Witness allocation takes the branch for odd
cofactor weight at least weight(r - 1); there the only equality constraint
emitted relates the allocated point to itself (the second entry of the
check list), it is satisfied for every on-curve point, and the allocated
variable keeps the value of the witnessed point: the computed
(r - 1)-multiple is discarded, so membership in the prime-order subgroup is
not enforced — witnessed by an on-curve point of order 9 that passes all
checks. -/
theorem claim_C4 :
    (∀ g : Pt K5, PtOn 1 1 g →
      (witnessAllocW curve5 g).2.all id = true
      ∧ valueOf (witnessAllocW curve5 g).1 = g)
    ∧ (∀ x y z : K5, eqCheckB (⟨x, y, z⟩ : Tri K5) ⟨x, y, z⟩ = true)
    ∧ (∃ g : Pt K5, PtOn 1 1 g ∧ nsmulPt 1 3 g ≠ none
        ∧ (witnessAllocW curve5 g).2.all id = true) := by decide

/-- C5: scalar_mul_le applied to a representative of the identity (z = 0)
returns a point whose value is the identity, for every bit pattern and
every curve: the constant-zero early return, the empty-bits return, and
the final select on the infinity flag each yield the identity. -/
theorem claim_C5 {F : Type} [Field F] [DecidableEq F] (a b : F) (sBits : ℕ)
    (p : PVar F) (bits : List BitV) (hz : p.t.z = 0) :
    valueOf (scalarMulLe a b sBits p bits) = none := by
  have hv : valueOf p = none := by
    unfold valueOf valueOfT
    rw [if_pos hz]
  by_cases hc : p.c = true ∧ valueOf p = none
  · have hred : scalarMulLe a b sBits p bits = p := by
      unfold scalarMulLe
      rw [if_pos hc]
    rw [hred]
    exact hv
  · by_cases hb : bits = []
    · subst hb
      have hred : scalarMulLe a b sBits p [] = zeroV := by
        unfold scalarMulLe
        rw [if_neg hc]
        rfl
      rw [hred]
      exact valueOf_zeroV
    · rw [scalarMulLe_red a b sBits p bits hc hb, selP_val, toAffineVals_none p hv]
      simp [valueOf_zeroV]

theorem claim_C5_witness :
    ((⟨⟨0, 1, 0⟩, false⟩ : PVar K7)).t.z = 0
    ∧ valueOf (scalarMulLe (0 : K7) 3 4 ⟨⟨0, 1, 0⟩, false⟩
        [⟨false, true⟩, ⟨false, true⟩, ⟨true, true⟩]) = none :=
  ⟨rfl, claim_C5 0 3 4 ⟨⟨0, 1, 0⟩, false⟩ _ rfl⟩

/-- C6: for every projective point variable satisfying the data-model
invariant, including representatives of the identity, the addition P + P
(through any of the constant-folding branches of the Add impl) represents
the same group element as double_in_place applied to P. -/
theorem claim_C6 (p : PVar K7) (hp : Good 0 3 p) :
    valueOf (gAdd 0 3 p p) = valueOf (dblV 0 3 p) := by
  rw [(C7.gAdd_val p p hp hp).1]
  exact (C7.dbl_val p.t hp).1.symm

theorem claim_C6_witness :
    Good 0 3 (⟨⟨0, 1, 0⟩, false⟩ : PVar K7)
    ∧ valueOf (gAdd 0 3 ⟨⟨0, 1, 0⟩, false⟩ ⟨⟨0, 1, 0⟩, false⟩)
      = valueOf (dblV 0 3 (⟨⟨0, 1, 0⟩, false⟩ : PVar K7)) :=
  ⟨by decide, claim_C6 ⟨⟨0, 1, 0⟩, false⟩ (by decide)⟩

/-- C7: for every coordinate triple, the non-constant branch of to_affine
returns an infinity flag equal to the predicate z = 0, coordinates
(x / z, y / z) when z is nonzero and (0, 1) when z = 0, a witnessed inverse
equal to the inverse of z (or 0), and the enforced relation
z_inv * z = not(is_zero) holds under the honest assignment. -/
theorem claim_C7 {F : Type} [Field F] [DecidableEq F] (t : Tri F) :
    (toAffineNC t).inf = decide (t.z = 0)
    ∧ (toAffineNC t).x = (if t.z = 0 then 0 else t.x * t.z⁻¹)
    ∧ (toAffineNC t).y = (if t.z = 0 then 1 else t.y * t.z⁻¹)
    ∧ (toAffineNC t).zinv = (if t.z = 0 then 0 else t.z⁻¹)
    ∧ (toAffineNC t).check = true := by
  by_cases hz : t.z = 0
  · simp [toAffineNC, hz]
  · simp [toAffineNC, hz, mul_comm, inv_mul_cancel₀ hz]

/-- C8: when either operand of the Add impl is a compile-time constant,
a constant zero copies the other operand unchanged, and a non-zero constant
leads to mixed addition (add_mixed) of the other operand with the affine
coordinates of the constant — in the order the source tests the branches:
first operand constant first, otherwise second operand constant; and in
every case the result represents the same group element as the generic
complete addition (Algorithm 1) of the two coordinate triples. -/
theorem claim_C8 (p q : PVar K7) (hp : Good 0 3 p) (hq : Good 0 3 q)
    (hc : p.c = true ∨ q.c = true) :
    (p.c = true →
      (valueOf p = none → gAdd 0 3 p q = q)
      ∧ (∀ w : K7 × K7, valueOf p = some w →
          gAdd 0 3 p q = ⟨maddT 0 3 q.t w.1 w.2, q.c⟩))
    ∧ (p.c = false → q.c = true →
      (valueOf q = none → gAdd 0 3 p q = p)
      ∧ (∀ w : K7 × K7, valueOf q = some w →
          gAdd 0 3 p q = ⟨maddT 0 3 p.t w.1 w.2, p.c⟩))
    ∧ valueOf (gAdd 0 3 p q) = valueOfT (caddT 0 3 p.t q.t) := by
  refine ⟨?_, ?_, ?_⟩
  · intro hpc
    refine ⟨?_, ?_⟩
    · intro hv
      simp [gAdd, hpc, hv]
    · intro w hv
      simp [gAdd, hpc, hv]
  · intro hpc hqc
    refine ⟨?_, ?_⟩
    · intro hv
      simp [gAdd, hpc, hqc, hv]
    · intro w hv
      simp [gAdd, hpc, hqc, hv]
  · rw [(C7.gAdd_val p q hp hq).1]
    exact (C7.cadd_val p.t q.t hp hq).1.symm

theorem claim_C8_witness :
    Good (0 : K7) 3 ⟨⟨4, 2, 1⟩, false⟩
    ∧ Good (0 : K7) 3 ⟨⟨1, 2, 1⟩, true⟩
    ∧ (((⟨⟨4, 2, 1⟩, false⟩ : PVar K7)).c = true
        ∨ ((⟨⟨1, 2, 1⟩, true⟩ : PVar K7)).c = true)
    ∧ ((((⟨⟨4, 2, 1⟩, false⟩ : PVar K7)).c = true →
          (valueOf (⟨⟨4, 2, 1⟩, false⟩ : PVar K7) = none →
            gAdd (0 : K7) 3 ⟨⟨4, 2, 1⟩, false⟩ ⟨⟨1, 2, 1⟩, true⟩
              = ⟨⟨1, 2, 1⟩, true⟩)
          ∧ (∀ w : K7 × K7, valueOf (⟨⟨4, 2, 1⟩, false⟩ : PVar K7) = some w →
              gAdd (0 : K7) 3 ⟨⟨4, 2, 1⟩, false⟩ ⟨⟨1, 2, 1⟩, true⟩
                = ⟨maddT (0 : K7) 3 ((⟨⟨1, 2, 1⟩, true⟩ : PVar K7)).t w.1 w.2,
                    ((⟨⟨1, 2, 1⟩, true⟩ : PVar K7)).c⟩))
      ∧ (((⟨⟨4, 2, 1⟩, false⟩ : PVar K7)).c = false →
          ((⟨⟨1, 2, 1⟩, true⟩ : PVar K7)).c = true →
          (valueOf (⟨⟨1, 2, 1⟩, true⟩ : PVar K7) = none →
            gAdd (0 : K7) 3 ⟨⟨4, 2, 1⟩, false⟩ ⟨⟨1, 2, 1⟩, true⟩
              = ⟨⟨4, 2, 1⟩, false⟩)
          ∧ (∀ w : K7 × K7, valueOf (⟨⟨1, 2, 1⟩, true⟩ : PVar K7) = some w →
              gAdd (0 : K7) 3 ⟨⟨4, 2, 1⟩, false⟩ ⟨⟨1, 2, 1⟩, true⟩
                = ⟨maddT (0 : K7) 3 ((⟨⟨4, 2, 1⟩, false⟩ : PVar K7)).t w.1 w.2,
                    ((⟨⟨4, 2, 1⟩, false⟩ : PVar K7)).c⟩))
      ∧ valueOf (gAdd (0 : K7) 3 ⟨⟨4, 2, 1⟩, false⟩ ⟨⟨1, 2, 1⟩, true⟩)
          = valueOfT (caddT (0 : K7) 3 ((⟨⟨4, 2, 1⟩, false⟩ : PVar K7)).t
              ((⟨⟨1, 2, 1⟩, true⟩ : PVar K7)).t)) :=
  ⟨by decide, by decide, Or.inr rfl,
    claim_C8 ⟨⟨4, 2, 1⟩, false⟩ ⟨⟨1, 2, 1⟩, true⟩
      (by decide) (by decide) (Or.inr rfl)⟩

/-- C9 counterexample: a value closure failing with Unsatisfiable does not
surface unchanged from new_variable_omit_on_curve_check — the allocation
returns AssignmentMissing instead (the source maps every closure failure to
per-coordinate Err(AssignmentMissing)). -/
theorem claim_C9_counterexample :
    (allocOmitOnCurveCheckE (Except.error SynthErr.unsatisfiable) Mode.witness
      : Except SynthErr (PVar K7))
      ≠ Except.error SynthErr.unsatisfiable := by
  intro h
  exact SynthErr.noConfusion (Except.error.inj h)

/-- C9 amended: whenever the value closure fails, the allocation fails (the
error is never swallowed), but the error kind delivered to the caller is
always AssignmentMissing — in particular an AssignmentMissing failure
surfaces unchanged, while any other kind is replaced. -/
theorem claim_C9_amended {F : Type} [Field F] (e : SynthErr) (mode : Mode) :
    (allocOmitOnCurveCheckE (Except.error e) mode : Except SynthErr (PVar F))
      = Except.error SynthErr.assignmentMissing := rfl

/-- C10: precomputed_base_scalar_mul_le indexes the collected bases at 0,
which on an empty iterator is an out-of-bounds panic (modelled by none)
rather than a SynthesisError result. -/
theorem claim_C10 :
    precomputedBaseScalarMulLe (0 : K7) 3 4 [] = none := rfl

end SWGadget
